import Mathlib

/-!
Shallow embedding of the citation-locating core of `readera_pdf_highlighter.py`
and proofs about it.  Strings are modelled as `List Char`; Python integers as
`Int` where a value can be negative (list indices returned by `find_in`), and
`Nat` elsewhere.  Fallible operations (a Python `IndexError`) are modelled with
`Option` / an explicit `crash` result.
-/

namespace ReaderaHighlighter

/-- Embedding of the character class of `re.findall(r'[A-Za-z0-9!?.,;:\x27"]', text)`:
the fixed allow-set used by `tokenize`. -/
def isAllowedChar (c : Char) : Bool :=
  ('A' ≤ c && c ≤ 'Z') || ('a' ≤ c && c ≤ 'z') || ('0' ≤ c && c ≤ '9') ||
    (c == '!') || (c == '?') || (c == '.') || (c == ',') || (c == ';') ||
    (c == ':') || (c == '\'') || (c == '"')

/-- Embedding of `tokenize(text)`: `re.findall` with a single-character class
returns exactly the characters of `text` that match, in order, i.e. a filter. -/
def tokenize (text : List Char) : List Char :=
  text.filter isAllowedChar

/-- Embedding of Python `text.index(span)` wrapped in `try/except ValueError`:
the index of the leftmost occurrence of `span` as a contiguous substring of
`text`, or `none` when there is no occurrence.  (`text.index('')` is `0`.) -/
def strIndex (text span : List Char) : Option Nat :=
  if span.isPrefixOf text then some 0
  else
    match text with
    | [] => none
    | _ :: t => (strIndex t span).map (· + 1)

/-- Embedding of the fallback loop body of `find_in`:
`for i in range(1, len(span)): if text.endswith(span[:-i]): return ...`.
`i` is the current truncation count and `fuel` the number of candidates left
(`len(span) - i` initially `len(span) - 1` candidates for `i = 1`).
Returns the first (smallest) truncation count whose truncated span is a
suffix of `text`. -/
def suffixSearchGo (text span : List Char) : Nat → Nat → Option Nat
  | _, 0 => none
  | i, fuel + 1 =>
    if (span.take (span.length - i)).isSuffixOf text then some i
    else suffixSearchGo text span (i + 1) fuel

/-- The whole fallback loop of `find_in`: try `i = 1, …, len(span) - 1`. -/
def suffixSearch (text span : List Char) : Option Nat :=
  suffixSearchGo text span 1 (span.length - 1)

/-- Embedding of `find_in(text, span)`.  Returns
`(start_index_of_match, end_index_of_match, remainder)` exactly as the Python
function does: a complete-match triple, a partial-match triple (the longest
proper truncation of `span` that ends `text`), or `(None, None, span)`. -/
def find_in (text span : List Char) : Option Int × Option Int × Option (List Char) :=
  match strIndex text span with
  | some m => (some (m : Int), some ((m : Int) + (span.length : Int) - 1), none)
  | none =>
    match suffixSearch text span with
    | some i =>
      (some ((text.length : Int) - ((span.length : Int) - (i : Int))),
       some ((text.length : Int) - 1),
       some (span.drop (span.length - i)))
    | none => (none, none, some span)

/-! ### Helper lemmas about `strIndex` -/

lemma isPrefixOf_eq_true_iff {l₁ l₂ : List Char} : l₁.isPrefixOf l₂ = true ↔ l₁ <+: l₂ := by
  simp

lemma isSuffixOf_eq_true_iff {l₁ l₂ : List Char} : l₁.isSuffixOf l₂ = true ↔ l₁ <:+ l₂ := by
  simp

lemma strIndex_some_starts_at :
    ∀ (t s : List Char) (m : Nat), strIndex t s = some m → s <+: t.drop m := by
  intro t
  induction t with
  | nil =>
    intro s m h
    unfold strIndex at h
    by_cases hp : s.isPrefixOf ([] : List Char)
    · simp only [hp, if_pos] at h
      cases h
      simpa using isPrefixOf_eq_true_iff.mp hp
    · simp [hp] at h
  | cons c t ih =>
    intro s m h
    unfold strIndex at h
    by_cases hp : s.isPrefixOf (c :: t)
    · simp only [hp, if_pos] at h
      cases h
      simpa using isPrefixOf_eq_true_iff.mp hp
    · simp only [hp, Bool.false_eq_true, if_false, Option.map_eq_some'] at h
      obtain ⟨m', hm', rfl⟩ := h
      simpa using ih s m' hm'

lemma strIndex_none_no_occurrence :
    ∀ (t s : List Char), strIndex t s = none → ¬ s <:+: t := by
  intro t
  induction t with
  | nil =>
    intro s h hinf
    rw [List.infix_nil] at hinf
    subst hinf
    simp [strIndex, List.isPrefixOf] at h
  | cons c t ih =>
    intro s h hinf
    unfold strIndex at h
    by_cases hp : s.isPrefixOf (c :: t)
    · simp [hp] at h
    · simp only [hp, Bool.false_eq_true, if_false, Option.map_eq_none'] at h
      rcases List.infix_cons_iff.mp hinf with hpre | hinf'
      · exact hp (isPrefixOf_eq_true_iff.mpr hpre)
      · exact ih s h hinf'

lemma strIndex_some_of_occurrence {t s : List Char} (h : s <:+: t) :
    ∃ m, strIndex t s = some m := by
  cases hm : strIndex t s with
  | none => exact absurd h (strIndex_none_no_occurrence t s hm)
  | some m => exact ⟨m, rfl⟩

lemma strIndex_none_of_no_occurrence {t s : List Char} (h : ¬ s <:+: t) :
    strIndex t s = none := by
  cases hm : strIndex t s with
  | none => rfl
  | some m =>
    exfalso
    apply h
    obtain ⟨r, hr⟩ := strIndex_some_starts_at t s m hm
    exact ⟨t.take m, r, by rw [List.append_assoc, hr, List.take_append_drop]⟩

/-! ### Helper lemmas about `suffixSearch` -/

lemma suffixSearchGo_some {t s : List Char} :
    ∀ (fuel i i₀ : Nat), suffixSearchGo t s i fuel = some i₀ →
      i ≤ i₀ ∧ i₀ < i + fuel ∧ (s.take (s.length - i₀)).isSuffixOf t = true ∧
        ∀ j, i ≤ j → j < i₀ → ¬ (s.take (s.length - j)).isSuffixOf t = true := by
  intro fuel
  induction fuel with
  | zero => intro i i₀ h; simp [suffixSearchGo] at h
  | succ fuel ih =>
    intro i i₀ h
    unfold suffixSearchGo at h
    by_cases hs : (s.take (s.length - i)).isSuffixOf t = true
    · simp only [hs, if_pos] at h
      cases h
      exact ⟨le_refl _, by omega, hs, fun j h1 h2 => by omega⟩
    · simp only [hs, Bool.false_eq_true, if_false] at h
      obtain ⟨h1, h2, h3, h4⟩ := ih (i + 1) i₀ h
      refine ⟨by omega, by omega, h3, ?_⟩
      intro j hj1 hj2
      rcases Nat.eq_or_lt_of_le hj1 with rfl | hj1'
      · exact hs
      · exact h4 j hj1' hj2

lemma suffixSearchGo_none {t s : List Char} :
    ∀ (fuel i : Nat), suffixSearchGo t s i fuel = none →
      ∀ j, i ≤ j → j < i + fuel → ¬ (s.take (s.length - j)).isSuffixOf t = true := by
  intro fuel
  induction fuel with
  | zero => intro i _ j h1 h2; omega
  | succ fuel ih =>
    intro i h j h1 h2
    unfold suffixSearchGo at h
    by_cases hs : (s.take (s.length - i)).isSuffixOf t = true
    · simp [hs] at h
    · simp only [hs, Bool.false_eq_true, if_false] at h
      rcases Nat.eq_or_lt_of_le h1 with rfl | h1'
      · exact hs
      · exact ih (i + 1) h j h1' (by omega)

lemma suffixSearchGo_none_of_all {t s : List Char}
    (hall : ∀ j, ¬ (s.take (s.length - j)).isSuffixOf t = true) :
    ∀ (fuel i : Nat), suffixSearchGo t s i fuel = none := by
  intro fuel
  induction fuel with
  | zero => intro i; rfl
  | succ fuel ih =>
    intro i
    unfold suffixSearchGo
    simp only [hall i, Bool.false_eq_true, if_false]
    exact ih (i + 1)

/-! ### Theorems for the `find_in` claims -/

/-- Claim C2: if `query` occurs as a contiguous substring of `haystack`, then
`find_in` returns `(start, end, None)` with `haystack[start:end+1] == query`
and `end - start + 1 == len(query)`; no remainder is produced. -/
theorem find_in_exact_match (t s : List Char) (h : s <:+: t) :
    ∃ m : Nat, find_in t s = (some (m : Int), some ((m : Int) + (s.length : Int) - 1), none) ∧
      (t.drop m).take s.length = s ∧
      ((m : Int) + (s.length : Int) - 1) - (m : Int) + 1 = (s.length : Int) := by
  obtain ⟨m, hm⟩ := strIndex_some_of_occurrence h
  refine ⟨m, ?_, ?_, by omega⟩
  · unfold find_in
    rw [hm]
  · have hpre := strIndex_some_starts_at t s m hm
    have := List.prefix_iff_eq_take.mp hpre
    rw [← this]

/-- Witness for C2 at a concrete input. -/
theorem find_in_exact_match_witness :
    (['b'] <:+: ['a', 'b', 'c']) ∧
      ∃ m : Nat,
        find_in ['a', 'b', 'c'] ['b'] =
            (some (m : Int), some ((m : Int) + (([ 'b'] : List Char).length : Int) - 1), none) ∧
          ((['a', 'b', 'c'] : List Char).drop m).take (['b'] : List Char).length = ['b'] ∧
          ((m : Int) + ((['b'] : List Char).length : Int) - 1) - (m : Int) + 1 =
            (((['b'] : List Char).length : Int)) :=
  ⟨by decide, find_in_exact_match ['a', 'b', 'c'] ['b'] (by decide)⟩

/-- Claim C1: when `query` is not a contiguous substring of `haystack` but some
non-empty proper prefix of `query` is a suffix of `haystack`, `find_in` returns
the longest such prefix: `start = len(haystack) - len(prefix)`,
`end = len(haystack) - 1`, the remainder is the non-empty truncated-off tail,
and `haystack[start:end+1] + remainder == query`. -/
theorem find_in_longest_prefix_suffix (t s : List Char)
    (hninf : ¬ s <:+: t)
    (hex : ∃ k, 1 ≤ k ∧ k < s.length ∧ s.take k <:+ t) :
    ∃ k, 1 ≤ k ∧ k < s.length ∧ s.take k <:+ t ∧
      (∀ k', k < k' → k' < s.length → ¬ s.take k' <:+ t) ∧
      find_in t s =
        (some ((t.length : Int) - (k : Int)), some ((t.length : Int) - 1), some (s.drop k)) ∧
      s.drop k ≠ [] ∧
      t.drop (t.length - k) ++ s.drop k = s := by
  have hstr : strIndex t s = none := strIndex_none_of_no_occurrence hninf
  obtain ⟨k₀, hk1, hk2, hk3⟩ := hex
  have hlen : 2 ≤ s.length := by omega
  have hP₀ : (s.take (s.length - (s.length - k₀))).isSuffixOf t = true := by
    have : s.length - (s.length - k₀) = k₀ := by omega
    rw [this]
    exact isSuffixOf_eq_true_iff.mpr hk3
  cases hss : suffixSearch t s with
  | none =>
    exfalso
    have := suffixSearchGo_none (s.length - 1) 1 hss (s.length - k₀) (by omega) (by omega)
    exact this hP₀
  | some i₀ =>
    obtain ⟨hi1, hi2, hi3, hi4⟩ := suffixSearchGo_some (s.length - 1) 1 i₀ hss
    refine ⟨s.length - i₀, by omega, by omega, isSuffixOf_eq_true_iff.mp hi3, ?_, ?_, ?_, ?_⟩
    · intro k' hk'1 hk'2 hk'3
      have hj : (s.take (s.length - (s.length - k'))).isSuffixOf t = true := by
        have : s.length - (s.length - k') = k' := by omega
        rw [this]
        exact isSuffixOf_eq_true_iff.mpr hk'3
      exact hi4 (s.length - k') (by omega) (by omega) hj
    · unfold find_in
      rw [hstr, hss]
      have hcast : ((s.length - i₀ : Nat) : Int) = (s.length : Int) - (i₀ : Int) := by omega
      rw [hcast]
    · intro hnil
      have := congrArg List.length hnil
      simp only [List.length_drop, List.length_nil] at this
      omega
    · have hsfx : s.take (s.length - i₀) <:+ t := isSuffixOf_eq_true_iff.mp hi3
      have hlt : (s.take (s.length - i₀)).length = s.length - i₀ := by
        simp only [List.length_take]
        omega
      have := List.suffix_iff_eq_drop.mp hsfx
      rw [hlt] at this
      rw [← this, List.take_append_drop]

/-- Witness for C1 at a concrete input: haystack `"XA"`, query `"AB"`. -/
theorem find_in_longest_prefix_suffix_witness :
    (¬ (['A', 'B'] : List Char) <:+: ['X', 'A']) ∧
      (∃ k, 1 ≤ k ∧ k < (['A', 'B'] : List Char).length ∧
        (['A', 'B'] : List Char).take k <:+ ['X', 'A']) ∧
      ∃ k, 1 ≤ k ∧ k < (['A', 'B'] : List Char).length ∧
        (['A', 'B'] : List Char).take k <:+ ['X', 'A'] ∧
        (∀ k', k < k' → k' < (['A', 'B'] : List Char).length →
          ¬ (['A', 'B'] : List Char).take k' <:+ ['X', 'A']) ∧
        find_in ['X', 'A'] ['A', 'B'] =
          (some (((['X', 'A'] : List Char).length : Int) - (k : Int)),
           some (((['X', 'A'] : List Char).length : Int) - 1),
           some ((['A', 'B'] : List Char).drop k)) ∧
        (['A', 'B'] : List Char).drop k ≠ [] ∧
        (['X', 'A'] : List Char).drop ((['X', 'A'] : List Char).length - k) ++
            (['A', 'B'] : List Char).drop k = ['A', 'B'] :=
  ⟨by decide, ⟨1, by decide, by decide, by decide⟩,
    find_in_longest_prefix_suffix ['X', 'A'] ['A', 'B'] (by decide)
      ⟨1, by decide, by decide, by decide⟩⟩

/-- Claim C3: if `query` is neither a substring of `haystack` nor has any
non-empty proper prefix that is a suffix of `haystack`, `find_in` returns
`(None, None, query)` with the query passed back unchanged. -/
theorem find_in_total_miss (t s : List Char) (h1 : ¬ s <:+: t)
    (h2 : ∀ k, 1 ≤ k → k < s.length → ¬ s.take k <:+ t) :
    find_in t s = (none, none, some s) := by
  have hstr : strIndex t s = none := strIndex_none_of_no_occurrence h1
  have hss : suffixSearch t s = none := by
    cases hss : suffixSearch t s with
    | none => rfl
    | some i₀ =>
      exfalso
      obtain ⟨hi1, hi2, hi3, _⟩ := suffixSearchGo_some (s.length - 1) 1 i₀ hss
      have hk1 : 1 ≤ s.length - i₀ := by omega
      have hk2 : s.length - i₀ < s.length := by omega
      exact h2 (s.length - i₀) hk1 hk2 (isSuffixOf_eq_true_iff.mp hi3)
  unfold find_in
  rw [hstr, hss]

/-- Witness for C3 at a concrete input: haystack `"a"`, query `"bc"`. -/
theorem find_in_total_miss_witness :
    (¬ (['b', 'c'] : List Char) <:+: ['a']) ∧
      (∀ k, 1 ≤ k → k < (['b', 'c'] : List Char).length →
        ¬ (['b', 'c'] : List Char).take k <:+ ['a']) ∧
      find_in ['a'] ['b', 'c'] = (none, none, some ['b', 'c']) :=
  ⟨by decide,
    fun k h1 h2 => by
      have hk : k = 1 := by simp only [List.length_cons, List.length_nil] at h2; omega
      subst hk; decide,
    find_in_total_miss ['a'] ['b', 'c'] (by decide)
      (fun k h1 h2 => by
        have hk : k = 1 := by simp only [List.length_cons, List.length_nil] at h2; omega
        subst hk; decide)⟩

/-! ### Theorems for the `tokenize` claims -/

lemma allowed_iff (c : Char) : isAllowedChar c = true ↔
    (c.isUpper ∨ c.isLower ∨ c.isDigit ∨
      c ∈ (['!', '?', '.', ',', ';', ':', '\'', '"'] : List Char)) := by
  simp only [isAllowedChar, Char.isUpper, Char.isLower, Char.isDigit,
    Bool.or_eq_true, Bool.and_eq_true, decide_eq_true_eq, beq_iff_eq,
    List.mem_cons, List.not_mem_nil, or_false, ge_iff_le, Char.le_def]
  constructor
  · tauto
  · tauto

/-- Claim C6: `tokenize` returns exactly the characters of the input that
belong to the fixed allow-set (ASCII letters, digits, and the eight
punctuation marks), in their original order (it is a sublist of the input, so
nothing is replaced or case-folded), and every whitespace character is
dropped. -/
theorem tokenize_allow_set (s : List Char) :
    (tokenize s).Sublist s ∧
      (∀ c : Char, c ∈ tokenize s ↔
        c ∈ s ∧ (c.isUpper ∨ c.isLower ∨ c.isDigit ∨
          c ∈ (['!', '?', '.', ',', ';', ':', '\'', '"'] : List Char))) ∧
      (∀ c : Char, c.isWhitespace → c ∉ tokenize s) := by
  refine ⟨List.filter_sublist s, ?_, ?_⟩
  · intro c
    rw [tokenize, List.mem_filter, allowed_iff]
  · intro c hw hc
    rw [tokenize, List.mem_filter] at hc
    have hal := hc.2
    simp only [Char.isWhitespace, Bool.or_eq_true, decide_eq_true_eq] at hw
    rcases hw with ((rfl | rfl) | rfl) | rfl <;> simp [isAllowedChar] at hal

/-- Witness for C6 at concrete inputs: a blank is dropped, the letters kept. -/
theorem tokenize_allow_set_witness :
    (' ' : Char).isWhitespace = true ∧ ' ' ∉ tokenize ['a', ' ', 'b'] ∧
      tokenize ['a', ' ', 'b'] = ['a', 'b'] :=
  ⟨by decide, (tokenize_allow_set ['a', ' ', 'b']).2.2 ' ' (by decide), by decide⟩

/-- Claim C9: tokenization is idempotent: re-tokenizing the concatenated
token stream returns the same token sequence. -/
theorem tokenize_idempotent (s : List Char) : tokenize (tokenize s) = tokenize s := by
  simp [tokenize, List.filter_filter]

/-! ### The scanner: data model -/

/-- A word bounding rectangle `(x0, y0, x1, y1)` (`word_info[:4]` in fitz).
Coordinates are carried opaquely; the scanner never computes with them. -/
structure Rect where
  x0 : Int
  y0 : Int
  x1 : Int
  y1 : Int
deriving DecidableEq

/-- A point, as produced by `fitz.Point`. -/
abbrev Point := Int × Int

/-- One word of a page as yielded by `extractWORDS`: bounding rectangle and
word text. -/
structure Word where
  rect : Rect
  text : List Char
deriving DecidableEq

/-- One recorded highlight
`(page, fitz.Point(char_coords[match_start][:2]), fitz.Point(char_coords[match_end][2:]))`;
the page is modelled by its index. -/
structure Highlight where
  page : Nat
  start : Point
  stop : Point
deriving DecidableEq

/-- A citation tuple `(note_body, note_page + note_index, note_extra)`. -/
abbrev Citation := List Char × Int × Option (List Char)

/-- Embedding of `get_textpage_words(page_index)` (without its cache): walk the
page's words in reading order, tokenize each word, and emit the joined token
characters next to one rectangle per emitted token. -/
def get_textpage_words (page : List Word) : List Char × List Rect :=
  (page.flatMap fun w => tokenize w.text,
   page.flatMap fun w => List.replicate (tokenize w.text).length w.rect)

/-- The `@cache` memoization of `get_textpage_words`, modelled explicitly: an
association list from page index to stored result, consulted before computing. -/
def get_textpage_words_cached (pages : List (List Word))
    (cache : List (Nat × (List Char × List Rect))) (i : Nat) :
    (List Char × List Rect) × List (Nat × (List Char × List Rect)) :=
  match cache.lookup i with
  | some v => (v, cache)
  | none =>
    (get_textpage_words (pages.getD i []),
     (i, get_textpage_words (pages.getD i [])) :: cache)

/-- Python list indexing `l[i]` with its negative-index convention; `none`
models an `IndexError`. -/
def pyGet (l : List Rect) (i : Int) : Option Rect :=
  let j : Int := if i < 0 then (l.length : Int) + i else i
  if j < 0 then none else l[j.toNat]?

/-- Result of scanning one citation part through the remaining pages.
`crash` models the `IndexError` that `char_coords[...]` raises on an empty
coordinate list; `outOfFuel` only arises when the fuelled loop below is run
with insufficient fuel (it never does at the bound used by `scan_part`). -/
inductive ScanResult where
  | found (highlights : List Highlight) (page : Nat)
  | notFound
  | crash
  | outOfFuel
deriving DecidableEq

/-- One iteration of the `while page_index < len(pages)` loop of
`add_citations_to_pdf`, for one citation part: either the loop exits with a
result (`done`) or continues with an updated page index, remainder and
accumulated-highlight list (`next`). -/
inductive StepOut where
  | done (r : ScanResult)
  | next (p : Nat) (remainder : List Char) (highlights : List Highlight)
deriving DecidableEq

/-- The body of the per-part page loop, translated clause by clause:
no match resets and advances (or, for an empty part string, exits found);
a match starting past 0 while highlights are held from a previous page is the
false-continuation guard and retries the same page; otherwise the span is
recorded and the loop advances (non-empty remainder) or exits found. -/
def scan_step (pages : List (List Word)) (cit : List Char) (p : Nat)
    (remainder : List Char) (highlights : List Highlight) : StepOut :=
  if p < pages.length then
    match find_in (get_textpage_words (pages.getD p [])).1 remainder with
    | (none, _, _) =>
      if cit = [] then .done (.found [] p)
      else .next (p + 1) cit []
    | (some ms, mEnd, rem) =>
      if highlights ≠ [] ∧ 0 < ms then .next p cit []
      else
        match mEnd with
        | none => .done .crash
        | some me =>
          match pyGet (get_textpage_words (pages.getD p [])).2 ms,
              pyGet (get_textpage_words (pages.getD p [])).2 me with
          | some r1, some r2 =>
            match rem with
            | some rr =>
              if rr = [] then
                .done (.found (highlights ++ [⟨p, (r1.x0, r1.y0), (r2.x1, r2.y1)⟩]) p)
              else .next (p + 1) rr (highlights ++ [⟨p, (r1.x0, r1.y0), (r2.x1, r2.y1)⟩])
            | none => .done (.found (highlights ++ [⟨p, (r1.x0, r1.y0), (r2.x1, r2.y1)⟩]) p)
          | _, _ => .done .crash
  else .done .notFound

/-- The per-part page loop with explicit fuel (one unit per loop entry). -/
def scanPartFuel (pages : List (List Word)) (cit : List Char) :
    Nat → Nat → List Char → List Highlight → ScanResult
  | 0, _, _, _ => .outOfFuel
  | fuel + 1, p, remainder, highlights =>
    match scan_step pages cit p remainder highlights with
    | .done res => res
    | .next p' r' hl' => scanPartFuel pages cit fuel p' r' hl'

/-- Loop measure: each iteration strictly decreases it
(`scan_step_measure` below), so `2 * (len(pages) - p) + 1` bounds the
remaining iterations. -/
def scanMeasure (pages : List (List Word)) (p : Nat) (highlights : List Highlight) : Nat :=
  2 * (pages.length - p) + (if highlights = [] then 0 else 1)

/-- The per-part page loop of `add_citations_to_pdf`, run with (provably
sufficient, see `scan_loop_fuel_bound`) fuel. -/
def scan_part (pages : List (List Word)) (cit : List Char) (p : Nat)
    (remainder : List Char) (highlights : List Highlight) : ScanResult :=
  scanPartFuel pages cit (2 * (pages.length - p) + 2) p remainder highlights

/-- The scanner's per-run mutable state: `page_index`,
`page_index_last_found`, `num_found`, `num_not_found`, and the highlight
annotations emitted so far. -/
structure RunState where
  page_index : Nat
  page_index_last_found : Nat
  num_found : Nat
  num_not_found : Nat
  annots : List Highlight
deriving DecidableEq

/-- Processing of one citation part: tokenize it, scan the pages from the
current cursor, and update the run state exactly as the source does on
`FOUND` (emit highlights, move `page_index_last_found` up, count) or on page
exhaustion (count not-found, reset the cursor).  `none` models the run dying
with an uncaught `IndexError`. -/
def step_part (pages : List (List Word)) (st : RunState) (part : List Char) :
    Option RunState :=
  match scan_part pages (tokenize part) st.page_index (tokenize part) [] with
  | .found hs p =>
    some ⟨p, p, st.num_found + 1, st.num_not_found, st.annots ++ hs⟩
  | .notFound =>
    some ⟨st.page_index_last_found, st.page_index_last_found, st.num_found,
      st.num_not_found + 1, st.annots⟩
  | .crash => none
  | .outOfFuel => none

/-- Fold of `step_part` over the citation parts in processing order. -/
def run_parts (pages : List (List Word)) : RunState → List (List Char) → Option RunState
  | st, [] => some st
  | st, part :: rest =>
    match step_part pages st part with
    | none => none
    | some st' => run_parts pages st' rest

/-- Python `str.split` with a single-character separator. -/
def splitOnChar (sep : Char) : List Char → List (List Char)
  | [] => [[]]
  | c :: rest =>
    if c = sep then [] :: splitOnChar sep rest
    else
      match splitOnChar sep rest with
      | [] => [[c]]
      | h :: t => (c :: h) :: t

/-- Embedding of `add_citations_to_pdf`: sort the citations by their order
key (a stable sort, like Python's `sorted`), split each into parts on embedded
line breaks, and scan the parts in order starting from page 0. -/
def add_citations_to_pdf (pages : List (List Word)) (citations : List Citation) :
    Option RunState :=
  run_parts pages ⟨0, 0, 0, 0, []⟩
    ((List.insertionSort (fun a b : Citation => a.2.1 ≤ b.2.1) citations).flatMap
      fun c => splitOnChar '\n' c.1)

/-! ### Helper lemmas about the per-part page loop -/

lemma scan_step_next {pages : List (List Word)} {cit : List Char} {p : Nat}
    {remainder : List Char} {highlights : List Highlight}
    {p' : Nat} {r' : List Char} {hl' : List Highlight}
    (h : scan_step pages cit p remainder highlights = .next p' r' hl') :
    p < pages.length ∧ (p' = p + 1 ∨ (p' = p ∧ hl' = [] ∧ highlights ≠ [])) ∧
      ∀ x ∈ hl', x ∈ highlights ∨ x.page = p := by
  unfold scan_step at h
  split at h
  · next hp =>
    refine ⟨hp, ?_⟩
    split at h
    · split at h
      · simp at h
      · cases h
        exact ⟨Or.inl rfl, by simp⟩
    · split at h
      · next hg =>
        cases h
        exact ⟨Or.inr ⟨rfl, rfl, hg.1⟩, by simp⟩
      · split at h
        · simp at h
        · split at h
          · split at h
            · split at h
              · simp at h
              · cases h
                refine ⟨Or.inl rfl, ?_⟩
                intro x hx
                rcases List.mem_append.mp hx with hx | hx
                · exact Or.inl hx
                · simp at hx
                  subst hx
                  exact Or.inr rfl
            · simp at h
          · simp at h
  · simp at h

lemma scan_step_found {pages : List (List Word)} {cit : List Char} {p : Nat}
    {remainder : List Char} {highlights : List Highlight}
    {hs : List Highlight} {pf : Nat}
    (h : scan_step pages cit p remainder highlights = .done (.found hs pf)) :
    pf = p ∧ ∀ x ∈ hs, x ∈ highlights ∨ x.page = p := by
  unfold scan_step at h
  split at h
  · split at h
    · split at h
      · cases h
        exact ⟨rfl, by simp⟩
      · simp at h
    · split at h
      · simp at h
      · split at h
        · simp at h
        · split at h
          · split at h
            · split at h
              · cases h
                refine ⟨rfl, ?_⟩
                intro x hx
                rcases List.mem_append.mp hx with hx | hx
                · exact Or.inl hx
                · simp at hx
                  subst hx
                  exact Or.inr rfl
              · simp at h
            · cases h
              refine ⟨rfl, ?_⟩
              intro x hx
              rcases List.mem_append.mp hx with hx | hx
              · exact Or.inl hx
              · simp at hx
                subst hx
                exact Or.inr rfl
          · simp at h
  · simp at h

lemma scan_step_measure {pages : List (List Word)} {cit : List Char} {p : Nat}
    {remainder : List Char} {highlights : List Highlight}
    {p' : Nat} {r' : List Char} {hl' : List Highlight}
    (h : scan_step pages cit p remainder highlights = .next p' r' hl') :
    scanMeasure pages p' hl' < scanMeasure pages p highlights := by
  obtain ⟨hp, hcase, _⟩ := scan_step_next h
  unfold scanMeasure
  have b1 : (if hl' = [] then (0 : Nat) else 1) ≤ 1 := by split <;> omega
  rcases hcase with rfl | ⟨rfl, rfl, hne⟩
  · omega
  · have e1 : (if ([] : List Highlight) = [] then (0 : Nat) else 1) = 0 := by simp
    have e2 : (if highlights = [] then (0 : Nat) else 1) = 1 := by simp [hne]
    omega

lemma scanPartFuel_mono {pages : List (List Word)} {cit : List Char} :
    ∀ (f₁ : Nat) (p : Nat) (r : List Char) (hl : List Highlight) (f₂ : Nat),
      scanMeasure pages p hl < f₁ → scanMeasure pages p hl < f₂ →
      scanPartFuel pages cit f₁ p r hl = scanPartFuel pages cit f₂ p r hl := by
  intro f₁
  induction f₁ with
  | zero => intro p r hl f₂ h1 _; omega
  | succ f₁ ih =>
    intro p r hl f₂ h1 h2
    cases f₂ with
    | zero => omega
    | succ f₂ =>
      simp only [scanPartFuel]
      cases hstep : scan_step pages cit p r hl with
      | done res => rfl
      | next p' r' hl' =>
        have hm := scan_step_measure hstep
        exact ih p' r' hl' f₂ (by omega) (by omega)

lemma scan_step_done_ne_outOfFuel {pages : List (List Word)} {cit : List Char} {p : Nat}
    {remainder : List Char} {highlights : List Highlight} {res : ScanResult}
    (h : scan_step pages cit p remainder highlights = .done res) :
    res ≠ .outOfFuel := by
  unfold scan_step at h
  split at h
  all_goals (try split at h)
  all_goals (try split at h)
  all_goals (try split at h)
  all_goals (try split at h)
  all_goals (try split at h)
  all_goals (try split at h)
  all_goals (cases h; try simp)

lemma scanPartFuel_ne_outOfFuel {pages : List (List Word)} {cit : List Char} :
    ∀ (fuel : Nat) (p : Nat) (r : List Char) (hl : List Highlight),
      scanMeasure pages p hl < fuel →
      scanPartFuel pages cit fuel p r hl ≠ .outOfFuel := by
  intro fuel
  induction fuel with
  | zero => intro p r hl h; omega
  | succ fuel ih =>
    intro p r hl h
    simp only [scanPartFuel]
    cases hstep : scan_step pages cit p r hl with
    | done res => exact scan_step_done_ne_outOfFuel hstep
    | next p' r' hl' =>
      have hm := scan_step_measure hstep
      exact ih p' r' hl' (by omega)

lemma scanMeasure_lt_bound (pages : List (List Word)) (p : Nat) (hl : List Highlight) :
    scanMeasure pages p hl < 2 * (pages.length - p) + 2 := by
  unfold scanMeasure
  split <;> omega

lemma scan_part_eq_fuel {pages : List (List Word)} {cit : List Char}
    {p : Nat} {r : List Char} {hl : List Highlight} {fuel : Nat}
    (h : scanMeasure pages p hl < fuel) :
    scanPartFuel pages cit fuel p r hl = scan_part pages cit p r hl :=
  scanPartFuel_mono fuel p r hl _ h (scanMeasure_lt_bound pages p hl)

lemma scanPartFuel_found {pages : List (List Word)} {cit : List Char} :
    ∀ (fuel : Nat) (p : Nat) (r : List Char) (hl : List Highlight)
      (hs : List Highlight) (pf : Nat),
      scanPartFuel pages cit fuel p r hl = .found hs pf →
      p ≤ pf ∧ ∀ x ∈ hs, x ∈ hl ∨ p ≤ x.page := by
  intro fuel
  induction fuel with
  | zero => intro p r hl hs pf h; simp [scanPartFuel] at h
  | succ fuel ih =>
    intro p r hl hs pf h
    simp only [scanPartFuel] at h
    cases hstep : scan_step pages cit p r hl with
    | done res =>
      rw [hstep] at h
      subst h
      obtain ⟨rfl, hmem⟩ := scan_step_found hstep
      refine ⟨le_refl _, ?_⟩
      intro x hx
      rcases hmem x hx with hx' | hx'
      · exact Or.inl hx'
      · exact Or.inr (le_of_eq hx'.symm)
    | next p' r' hl' =>
      rw [hstep] at h
      obtain ⟨hle', hmem'⟩ := ih p' r' hl' hs pf h
      obtain ⟨_, hcase, hstepmem⟩ := scan_step_next hstep
      have hpp' : p ≤ p' := by rcases hcase with rfl | ⟨rfl, _, _⟩ <;> omega
      refine ⟨le_trans hpp' hle', ?_⟩
      intro x hx
      rcases hmem' x hx with hx' | hx'
      · rcases hstepmem x hx' with hx'' | hx''
        · exact Or.inl hx''
        · exact Or.inr (le_of_eq hx''.symm)
      · exact Or.inr (le_trans hpp' hx')

lemma scan_part_found {pages : List (List Word)} {cit : List Char}
    {p : Nat} {r : List Char} {hl : List Highlight} {hs : List Highlight} {pf : Nat}
    (h : scan_part pages cit p r hl = .found hs pf) :
    p ≤ pf ∧ ∀ x ∈ hs, x ∈ hl ∨ p ≤ x.page :=
  scanPartFuel_found _ p r hl hs pf h

lemma scanMeasure_nil_highlights (pages : List (List Word)) (p : Nat) :
    scanMeasure pages p [] = 2 * (pages.length - p) := by
  simp [scanMeasure]

/-! ### Theorems for the scanner claims -/

/-- Claim C4: when highlights accumulated from a previous page are held and the
current page's match starts past offset 0, the scanner discards the
accumulated highlights, resets the remainder to the full citation-part text,
and retries the same page; no span of the discarded partial match appears in
the part's final result. -/
theorem false_continuation_guard (pages : List (List Word)) (cit remainder : List Char)
    (p : Nat) (highlights : List Highlight) (ms : Int) (mEnd : Option Int)
    (rem : Option (List Char))
    (hp : p < pages.length)
    (hfind : find_in (get_textpage_words (pages.getD p [])).1 remainder = (some ms, mEnd, rem))
    (hms : 0 < ms) (hhl : highlights ≠ [])
    (hprev : ∀ x ∈ highlights, x.page < p) :
    scan_part pages cit p remainder highlights = scan_part pages cit p cit [] ∧
      ∀ hs pf, scan_part pages cit p cit [] = ScanResult.found hs pf →
        ∀ x ∈ highlights, x ∉ hs := by
  have hstep : scan_step pages cit p remainder highlights = .next p cit [] := by
    unfold scan_step
    rw [if_pos hp, hfind]
    exact if_pos ⟨hhl, hms⟩
  constructor
  · have h1 : scan_part pages cit p remainder highlights =
        scanPartFuel pages cit (2 * (pages.length - p) + 1) p cit [] := by
      show scanPartFuel pages cit (2 * (pages.length - p) + 1 + 1) p remainder highlights = _
      simp only [scanPartFuel]
      rw [hstep]
    rw [h1]
    exact scan_part_eq_fuel (by rw [scanMeasure_nil_highlights]; omega)
  · intro hs pf hfound x hx hxin
    obtain ⟨_, hmem⟩ := scan_part_found hfound
    rcases hmem x hxin with hin | hge
    · simp at hin
    · exact absurd (hprev x hx) (by omega)

/-- Witness for C4: page 0 is `"XA"` (its tail `"A"` partially matched query
`"AB"`), page 1 is `"XAB"`; on page 1 the remainder `"B"` matches at offset 2,
so the guard fires. -/
theorem false_continuation_guard_witness :
    (1 : Nat) < ([[⟨⟨1, 2, 3, 4⟩, ['X', 'A']⟩], [⟨⟨5, 6, 7, 8⟩, ['X', 'A', 'B']⟩]] :
        List (List Word)).length ∧
      find_in (get_textpage_words
          (([[⟨⟨1, 2, 3, 4⟩, ['X', 'A']⟩], [⟨⟨5, 6, 7, 8⟩, ['X', 'A', 'B']⟩]] :
            List (List Word)).getD 1 [])).1 ['B'] = (some 2, some 2, none) ∧
      (scan_part [[⟨⟨1, 2, 3, 4⟩, ['X', 'A']⟩], [⟨⟨5, 6, 7, 8⟩, ['X', 'A', 'B']⟩]]
          ['A', 'B'] 1 ['B'] [⟨0, (1, 2), (3, 4)⟩] =
        scan_part [[⟨⟨1, 2, 3, 4⟩, ['X', 'A']⟩], [⟨⟨5, 6, 7, 8⟩, ['X', 'A', 'B']⟩]]
          ['A', 'B'] 1 ['A', 'B'] [] ∧
      ∀ hs pf,
        scan_part [[⟨⟨1, 2, 3, 4⟩, ['X', 'A']⟩], [⟨⟨5, 6, 7, 8⟩, ['X', 'A', 'B']⟩]]
            ['A', 'B'] 1 ['A', 'B'] [] = ScanResult.found hs pf →
          ∀ x ∈ [(⟨0, (1, 2), (3, 4)⟩ : Highlight)], x ∉ hs) :=
  ⟨by decide, by decide,
    false_continuation_guard
      [[⟨⟨1, 2, 3, 4⟩, ['X', 'A']⟩], [⟨⟨5, 6, 7, 8⟩, ['X', 'A', 'B']⟩]]
      ['A', 'B'] ['B'] 1 [⟨0, (1, 2), (3, 4)⟩] 2 (some 2) none
      (by decide) (by decide) (by decide) (by decide) (by decide)⟩

/-- Claim C10: the per-part page loop terminates: any fuel above the loop
measure is enough (the fuelled loop does not run out and computes the same
result as `scan_part`), and in particular fuel `2 * len(pages) + 1` — i.e. at
most `2 * len(pages)` loop iterations — always suffices from a part start
(empty accumulated highlights). -/
theorem scan_loop_fuel_bound (pages : List (List Word)) (cit : List Char) (fuel p : Nat)
    (r : List Char) (hl : List Highlight)
    (h : scanMeasure pages p hl < fuel) :
    scanPartFuel pages cit fuel p r hl ≠ ScanResult.outOfFuel ∧
      scanPartFuel pages cit fuel p r hl = scan_part pages cit p r hl ∧
      scanPartFuel pages cit (2 * pages.length + 1) p cit [] = scan_part pages cit p cit [] := by
  refine ⟨scanPartFuel_ne_outOfFuel fuel p r hl h, scan_part_eq_fuel h, ?_⟩
  exact scan_part_eq_fuel (by rw [scanMeasure_nil_highlights]; omega)

/-- Witness for C10 at a concrete input. -/
theorem scan_loop_fuel_bound_witness :
    scanMeasure [[⟨⟨1, 2, 3, 4⟩, ['a']⟩]] 0 [] < 3 ∧
      (scanPartFuel [[⟨⟨1, 2, 3, 4⟩, ['a']⟩]] ['a'] 3 0 ['a'] [] ≠ ScanResult.outOfFuel ∧
        scanPartFuel [[⟨⟨1, 2, 3, 4⟩, ['a']⟩]] ['a'] 3 0 ['a'] [] =
          scan_part [[⟨⟨1, 2, 3, 4⟩, ['a']⟩]] ['a'] 0 ['a'] [] ∧
        scanPartFuel [[⟨⟨1, 2, 3, 4⟩, ['a']⟩]] ['a']
            (2 * ([[⟨⟨1, 2, 3, 4⟩, ['a']⟩]] : List (List Word)).length + 1) 0 ['a'] [] =
          scan_part [[⟨⟨1, 2, 3, 4⟩, ['a']⟩]] ['a'] 0 ['a'] []) :=
  ⟨by decide, scan_loop_fuel_bound [[⟨⟨1, 2, 3, 4⟩, ['a']⟩]] ['a'] 3 0 ['a'] [] (by decide)⟩

lemma step_part_inv {pages : List (List Word)} {st st' : RunState} {part : List Char}
    (h : step_part pages st part = some st') :
    st'.page_index_last_found ≤ st'.page_index := by
  unfold step_part at h
  split at h
  · cases h; exact le_refl _
  · cases h; exact le_refl _
  · cases h
  · cases h

lemma run_parts_inv {pages : List (List Word)} :
    ∀ (parts : List (List Char)) (st st' : RunState),
      st.page_index_last_found ≤ st.page_index →
      run_parts pages st parts = some st' →
      st'.page_index_last_found ≤ st'.page_index := by
  intro parts
  induction parts with
  | nil => intro st st' hinv h; cases h; exact hinv
  | cons part rest ih =>
    intro st st' hinv h
    unfold run_parts at h
    split at h
    · cases h
    · next stm hm => exact ih stm st' (step_part_inv hm) h

/-- Claim C5: across a run, the cursor never drops below the last successful
page index; a per-part step either keeps or advances the cursor, or resets it
to the last successful page index while counting one more not-found part; on
page exhaustion (`notFound`) the cursor is exactly restored to the last
successful page index before the next part is scanned; and the invariant is
preserved through any remaining sequence of parts. -/
theorem scan_cursor_invariant (pages : List (List Word)) (st st' : RunState)
    (part : List Char)
    (hinv : st.page_index_last_found ≤ st.page_index)
    (hstep : step_part pages st part = some st') :
    st'.page_index_last_found ≤ st'.page_index ∧
      (st.page_index ≤ st'.page_index ∨
        (st'.page_index = st.page_index_last_found ∧
          st'.num_not_found = st.num_not_found + 1)) ∧
      (scan_part pages (tokenize part) st.page_index (tokenize part) [] =
          ScanResult.notFound →
        st'.page_index = st.page_index_last_found ∧
          st'.num_not_found = st.num_not_found + 1 ∧
          st'.page_index_last_found = st.page_index_last_found) ∧
      ∀ (parts : List (List Char)) (st'' : RunState),
        run_parts pages st' parts = some st'' →
        st''.page_index_last_found ≤ st''.page_index := by
  refine ⟨step_part_inv hstep, ?_, ?_, ?_⟩
  · unfold step_part at hstep
    split at hstep
    · next hs pf hscan =>
      cases hstep
      exact Or.inl (scan_part_found hscan).1
    · cases hstep
      exact Or.inr ⟨rfl, rfl⟩
    · cases hstep
    · cases hstep
  · intro hnf
    unfold step_part at hstep
    rw [hnf] at hstep
    cases hstep
    exact ⟨rfl, rfl, rfl⟩
  · intro parts st'' h
    exact run_parts_inv parts st' st'' (step_part_inv hstep) h

/-- Witness for C5 at a concrete input: one page containing `"a"`, part `"a"`
found on page 0. -/
theorem scan_cursor_invariant_witness :
    ((⟨0, 0, 0, 0, []⟩ : RunState).page_index_last_found ≤
        (⟨0, 0, 0, 0, []⟩ : RunState).page_index) ∧
      step_part [[⟨⟨1, 2, 3, 4⟩, ['a']⟩]] ⟨0, 0, 0, 0, []⟩ ['a'] =
        some ⟨0, 0, 1, 0, [⟨0, (1, 2), (3, 4)⟩]⟩ ∧
      ((⟨0, 0, 1, 0, [⟨0, (1, 2), (3, 4)⟩]⟩ : RunState).page_index_last_found ≤
          (⟨0, 0, 1, 0, [⟨0, (1, 2), (3, 4)⟩]⟩ : RunState).page_index ∧
        ((⟨0, 0, 0, 0, []⟩ : RunState).page_index ≤
            (⟨0, 0, 1, 0, [⟨0, (1, 2), (3, 4)⟩]⟩ : RunState).page_index ∨
          ((⟨0, 0, 1, 0, [⟨0, (1, 2), (3, 4)⟩]⟩ : RunState).page_index =
              (⟨0, 0, 0, 0, []⟩ : RunState).page_index_last_found ∧
            (⟨0, 0, 1, 0, [⟨0, (1, 2), (3, 4)⟩]⟩ : RunState).num_not_found =
              (⟨0, 0, 0, 0, []⟩ : RunState).num_not_found + 1)) ∧
        (scan_part [[⟨⟨1, 2, 3, 4⟩, ['a']⟩]] (tokenize ['a'])
            (⟨0, 0, 0, 0, []⟩ : RunState).page_index (tokenize ['a']) [] =
            ScanResult.notFound →
          (⟨0, 0, 1, 0, [⟨0, (1, 2), (3, 4)⟩]⟩ : RunState).page_index =
              (⟨0, 0, 0, 0, []⟩ : RunState).page_index_last_found ∧
            (⟨0, 0, 1, 0, [⟨0, (1, 2), (3, 4)⟩]⟩ : RunState).num_not_found =
              (⟨0, 0, 0, 0, []⟩ : RunState).num_not_found + 1 ∧
            (⟨0, 0, 1, 0, [⟨0, (1, 2), (3, 4)⟩]⟩ : RunState).page_index_last_found =
              (⟨0, 0, 0, 0, []⟩ : RunState).page_index_last_found) ∧
        ∀ (parts : List (List Char)) (st'' : RunState),
          run_parts [[⟨⟨1, 2, 3, 4⟩, ['a']⟩]] ⟨0, 0, 1, 0, [⟨0, (1, 2), (3, 4)⟩]⟩ parts =
              some st'' →
            st''.page_index_last_found ≤ st''.page_index) :=
  ⟨by decide, by decide,
    scan_cursor_invariant [[⟨⟨1, 2, 3, 4⟩, ['a']⟩]] ⟨0, 0, 0, 0, []⟩
      ⟨0, 0, 1, 0, [⟨0, (1, 2), (3, 4)⟩]⟩ ['a'] (by decide) (by decide)⟩

/-! ### Helper lemmas for the empty-input and page-stream claims -/

lemma scan_part_done {pages : List (List Word)} {cit : List Char} {p : Nat}
    {r : List Char} {hl : List Highlight} {res : ScanResult}
    (h : scan_step pages cit p r hl = .done res) :
    scan_part pages cit p r hl = res := by
  show scanPartFuel pages cit (2 * (pages.length - p) + 1 + 1) p r hl = res
  simp only [scanPartFuel]
  rw [h]

lemma scan_part_next {pages : List (List Word)} {cit : List Char} {p : Nat}
    {r : List Char} {hl : List Highlight} {p' : Nat} {r' : List Char} {hl' : List Highlight}
    (h : scan_step pages cit p r hl = .next p' r' hl') :
    scan_part pages cit p r hl = scan_part pages cit p' r' hl' := by
  have hm := scan_step_measure h
  have hb := scanMeasure_lt_bound pages p hl
  have h1 : scan_part pages cit p r hl =
      scanPartFuel pages cit (2 * (pages.length - p) + 1) p' r' hl' := by
    show scanPartFuel pages cit (2 * (pages.length - p) + 1 + 1) p r hl = _
    simp only [scanPartFuel]
    rw [h]
  rw [h1]
  exact scan_part_eq_fuel (by omega)

lemma suffixSearchGo_eq_none_of {t s : List Char} :
    ∀ (fuel i : Nat),
      (∀ j, i ≤ j → j < i + fuel → ¬ (s.take (s.length - j)).isSuffixOf t = true) →
      suffixSearchGo t s i fuel = none := by
  intro fuel
  induction fuel with
  | zero => intro i _; rfl
  | succ fuel ih =>
    intro i h
    unfold suffixSearchGo
    have hi : ¬ (s.take (s.length - i)).isSuffixOf t = true := h i (le_refl _) (by omega)
    simp only [hi, Bool.false_eq_true, if_false]
    exact ih (i + 1) fun j hj1 hj2 => h j (by omega) (by omega)

lemma strIndex_nil_span (s : List Char) : strIndex s [] = some 0 := by
  unfold strIndex
  split
  · rfl
  · next h => simp [List.isPrefixOf] at h

lemma find_in_empty_span (s : List Char) : find_in s [] = (some 0, some (-1), none) := by
  unfold find_in
  rw [strIndex_nil_span]
  norm_num

lemma find_in_nil_of_ne (r : List Char) (hr : r ≠ []) : find_in [] r = (none, none, some r) := by
  have h1 : strIndex [] r = none := by
    unfold strIndex
    obtain ⟨c, r', rfl⟩ := List.exists_cons_of_ne_nil hr
    simp [List.isPrefixOf]
  have h2 : suffixSearch [] r = none := by
    apply suffixSearchGo_eq_none_of
    intro j hj1 hj2 hsfx
    have hnil : r.take (r.length - j) <:+ ([] : List Char) := isSuffixOf_eq_true_iff.mp hsfx
    rw [List.suffix_nil] at hnil
    rw [List.take_eq_nil_iff] at hnil
    rcases hnil with h | h
    · omega
    · exact hr h
  unfold find_in
  rw [h1, h2]

lemma pyGet_zero (l : List Rect) : pyGet l 0 = l.head? := by
  unfold pyGet
  norm_num
  rw [List.head?_eq_getElem?]

lemma pyGet_neg_one (l : List Rect) (h : l ≠ []) : pyGet l (-1) = l.getLast? := by
  unfold pyGet
  have hlen : 1 ≤ l.length := List.length_pos.mpr h
  have hj : ¬ ((l.length : Int) + (-1) < 0) := by omega
  have ht : ((l.length : Int) + (-1)).toNat = l.length - 1 := by omega
  simp only [show ((-1 : Int) < 0) = True by simp, if_true, hj, if_false, ht]
  rw [List.getLast?_eq_getElem?]

lemma textpage_words_length (page : List Word) :
    (get_textpage_words page).1.length = (get_textpage_words page).2.length := by
  induction page with
  | nil => rfl
  | cons w ws ih =>
    simp only [get_textpage_words, List.flatMap_cons, List.length_append,
      List.length_replicate] at ih ⊢
    omega

lemma zip_replicate {α β : Type} (l : List α) (b : β) :
    l.zip (List.replicate l.length b) = l.map fun a => (a, b) := by
  induction l with
  | nil => rfl
  | cons a l ih => simp [List.replicate, ih]

lemma lookup_mem {β : Type} :
    ∀ (l : List (Nat × β)) (i : Nat) (v : β), l.lookup i = some v → (i, v) ∈ l := by
  intro l
  induction l with
  | nil => intro i v h; simp [List.lookup] at h
  | cons e l ih =>
    intro i v h
    rw [List.lookup] at h
    split at h
    · next heq =>
      cases h
      have : i = e.1 := by simpa using heq
      subst this
      exact List.mem_cons_self _ _
    · exact List.mem_cons_of_mem _ (ih i v h)

/-! ### Theorems for the empty-input claim -/

/-- Counterexample to claim C7: an empty citation part is NOT an immediate
non-match.  On a page that has tokens the scanner registers an immediate
complete match (found count 1, a highlight is emitted); on a page without
tokens it raises an `IndexError` (modelled as `crash`), i.e. it is fatal. -/
theorem empty_input_counterexample :
    add_citations_to_pdf [[⟨⟨1, 2, 3, 4⟩, ['a']⟩]] [(([] : List Char), (0 : Int), none)] =
      some ⟨0, 0, 1, 0, [⟨0, (1, 2), (3, 4)⟩]⟩ ∧
    scan_part [([] : List Word)] [] 0 [] [] = ScanResult.crash := by
  exact ⟨by decide, by decide⟩

/-- Claim C7 as amended: (a) a page with no tokens is an immediate non-match
for a non-empty remainder of a non-empty part: the scan just advances to the
next page, not fatally; (b) a citation part whose tokenization is empty is an
immediate complete match on a page that has tokens: the scanner records a
highlight from the page's first token rectangle to its last and reports the
part found; (c) on a page with no tokens an empty part makes the scanner
raise an index error. -/
theorem empty_input_behavior :
    (∀ (pages : List (List Word)) (cit r : List Char) (p : Nat) (hl : List Highlight),
        p < pages.length →
        (get_textpage_words (pages.getD p [])).1 = [] →
        r ≠ [] → cit ≠ [] →
        scan_part pages cit p r hl = scan_part pages cit (p + 1) cit []) ∧
      (∀ (pages : List (List Word)) (p : Nat) (hl : List Highlight),
        p < pages.length →
        (get_textpage_words (pages.getD p [])).1 ≠ [] →
        ∃ c0 cl, ((get_textpage_words (pages.getD p [])).2).head? = some c0 ∧
          ((get_textpage_words (pages.getD p [])).2).getLast? = some cl ∧
          scan_part pages [] p [] hl =
            ScanResult.found (hl ++ [⟨p, (c0.x0, c0.y0), (cl.x1, cl.y1)⟩]) p) ∧
      (∀ (pages : List (List Word)) (p : Nat) (hl : List Highlight),
        p < pages.length →
        (get_textpage_words (pages.getD p [])).1 = [] →
        scan_part pages [] p [] hl = ScanResult.crash) := by
  refine ⟨?_, ?_, ?_⟩
  · intro pages cit r p hl hp hstream hr hcit
    have hstep : scan_step pages cit p r hl = .next (p + 1) cit [] := by
      unfold scan_step
      rw [if_pos hp, hstream, find_in_nil_of_ne r hr]
      exact if_neg hcit
    exact scan_part_next hstep
  · intro pages p hl hp hstream
    have hlen := textpage_words_length (pages.getD p [])
    have hco : (get_textpage_words (pages.getD p [])).2 ≠ [] := by
      intro hnil
      rw [hnil, List.length_nil] at hlen
      exact hstream (List.eq_nil_of_length_eq_zero hlen)
    obtain ⟨c0, cs, hcons⟩ := List.exists_cons_of_ne_nil hco
    have hc0 : ((get_textpage_words (pages.getD p [])).2).head? = some c0 := by
      rw [hcons]; rfl
    have hlt : (get_textpage_words (pages.getD p [])).2.length - 1 <
        (get_textpage_words (pages.getD p [])).2.length := by
      rw [hcons]; simp
    have hcl : ((get_textpage_words (pages.getD p [])).2).getLast? =
        some ((get_textpage_words (pages.getD p [])).2.get
          ⟨(get_textpage_words (pages.getD p [])).2.length - 1, hlt⟩) := by
      rw [List.getLast?_eq_getElem?]
      rw [List.getElem?_eq_getElem hlt]
      simp
    refine ⟨c0, _, hc0, hcl, ?_⟩
    have hguard : ¬(hl ≠ [] ∧ (0 : Int) < 0) := fun h => absurd h.2 (lt_irrefl 0)
    have hstep : scan_step pages [] p [] hl = .done (.found (hl ++
        [⟨p, (c0.x0, c0.y0),
          (((get_textpage_words (pages.getD p [])).2.get
            ⟨(get_textpage_words (pages.getD p [])).2.length - 1, hlt⟩).x1,
           ((get_textpage_words (pages.getD p [])).2.get
            ⟨(get_textpage_words (pages.getD p [])).2.length - 1, hlt⟩).y1)⟩]) p) := by
      unfold scan_step
      rw [if_pos hp, find_in_empty_span]
      simp only [hguard, if_false]
      rw [pyGet_zero, pyGet_neg_one _ hco, hc0, hcl]
    exact scan_part_done hstep
  · intro pages p hl hp hstream
    have hlen := textpage_words_length (pages.getD p [])
    rw [hstream, List.length_nil] at hlen
    have hcoords : (get_textpage_words (pages.getD p [])).2 = [] :=
      List.eq_nil_of_length_eq_zero hlen.symm
    have hguard : ¬(hl ≠ [] ∧ (0 : Int) < 0) := fun h => absurd h.2 (lt_irrefl 0)
    have hstep : scan_step pages [] p [] hl = .done .crash := by
      unfold scan_step
      rw [if_pos hp, find_in_empty_span]
      simp only [hguard, if_false]
      rw [hcoords]
      rfl
    exact scan_part_done hstep

/-- Witness for the amended C7 at concrete inputs: an empty page 0 is skipped
for part `"a"`; an empty part on the one-page document `"ab"` is found with a
first-to-last-token highlight; an empty part on an empty page crashes. -/
theorem empty_input_behavior_witness :
    (scan_part [([] : List Word), [⟨⟨1, 2, 3, 4⟩, ['a']⟩]] ['a'] 0 ['a'] [] =
        scan_part [([] : List Word), [⟨⟨1, 2, 3, 4⟩, ['a']⟩]] ['a'] 1 ['a'] []) ∧
      (∃ c0 cl,
        ((get_textpage_words
            (([[⟨⟨1, 2, 3, 4⟩, ['a', 'b']⟩]] : List (List Word)).getD 0 [])).2).head? =
          some c0 ∧
        ((get_textpage_words
            (([[⟨⟨1, 2, 3, 4⟩, ['a', 'b']⟩]] : List (List Word)).getD 0 [])).2).getLast? =
          some cl ∧
        scan_part [[⟨⟨1, 2, 3, 4⟩, ['a', 'b']⟩]] [] 0 [] [] =
          ScanResult.found ([] ++ [⟨0, (c0.x0, c0.y0), (cl.x1, cl.y1)⟩]) 0) ∧
      scan_part [([] : List Word)] [] 0 [] [] = ScanResult.crash :=
  ⟨empty_input_behavior.1 [([] : List Word), [⟨⟨1, 2, 3, 4⟩, ['a']⟩]] ['a'] ['a'] 0 []
      (by decide) (by decide) (by decide) (by decide),
    empty_input_behavior.2.1 [[⟨⟨1, 2, 3, 4⟩, ['a', 'b']⟩]] 0 [] (by decide) (by decide),
    empty_input_behavior.2.2 [([] : List Word)] 0 [] (by decide) (by decide)⟩

/-! ### Theorem for the page-stream claim -/

/-- Claim C8: the page-stream builder returns a normalized string and a
coordinate list of equal length whose entries correspond tokenwise (character
`i` of the stream was emitted together with rectangle `i`, each word's
rectangle once per emitted token, words in reading order), and the result is
memoized by page index: a call through a sound cache returns the page's value,
keeps the cache sound, and an immediately repeated call returns the stored
value with the cache unchanged. -/
theorem textpage_words_alignment_memo :
    (∀ page : List Word,
        (get_textpage_words page).1.length = (get_textpage_words page).2.length ∧
        (get_textpage_words page).1.zip (get_textpage_words page).2 =
          page.flatMap fun w => (tokenize w.text).map fun c => (c, w.rect)) ∧
    (∀ (pages : List (List Word)) (cache : List (Nat × (List Char × List Rect))) (i : Nat),
        (∀ j v, (j, v) ∈ cache → v = get_textpage_words (pages.getD j [])) →
        (get_textpage_words_cached pages cache i).1 = get_textpage_words (pages.getD i []) ∧
        (∀ j v, (j, v) ∈ (get_textpage_words_cached pages cache i).2 →
          v = get_textpage_words (pages.getD j [])) ∧
        get_textpage_words_cached pages (get_textpage_words_cached pages cache i).2 i =
          ((get_textpage_words_cached pages cache i).1,
            (get_textpage_words_cached pages cache i).2)) := by
  constructor
  · intro page
    refine ⟨textpage_words_length page, ?_⟩
    induction page with
    | nil => rfl
    | cons w ws ih =>
      simp only [get_textpage_words, List.flatMap_cons] at ih ⊢
      rw [List.zip_append (by rw [List.length_replicate]), zip_replicate, ih]
  · intro pages cache i hwf
    unfold get_textpage_words_cached
    cases hl : cache.lookup i with
    | some v =>
      refine ⟨hwf i v (lookup_mem cache i v hl), hwf, ?_⟩
      rw [hl]
    | none =>
      refine ⟨rfl, ?_, ?_⟩
      · intro j v hmem
        rcases List.mem_cons.mp hmem with heq | hmem'
        · injection heq with h1 h2
          subst h1
          exact h2
        · exact hwf j v hmem'
      · show get_textpage_words_cached pages _ i = _
        unfold get_textpage_words_cached
        simp [List.lookup]

/-- Witness for C8 at a concrete page and the empty cache. -/
theorem textpage_words_alignment_memo_witness :
    ((get_textpage_words [⟨⟨1, 2, 3, 4⟩, ['a', ' ', 'b']⟩]).1.length =
        (get_textpage_words [⟨⟨1, 2, 3, 4⟩, ['a', ' ', 'b']⟩]).2.length ∧
      (get_textpage_words [⟨⟨1, 2, 3, 4⟩, ['a', ' ', 'b']⟩]).1.zip
          (get_textpage_words [⟨⟨1, 2, 3, 4⟩, ['a', ' ', 'b']⟩]).2 =
        ([⟨⟨1, 2, 3, 4⟩, ['a', ' ', 'b']⟩] : List Word).flatMap
          fun w => (tokenize w.text).map fun c => (c, w.rect)) ∧
      ((∀ j v, (j, v) ∈ ([] : List (Nat × (List Char × List Rect))) →
          v = get_textpage_words (([[⟨⟨1, 2, 3, 4⟩, ['a']⟩]] : List (List Word)).getD j [])) ∧
        ((get_textpage_words_cached [[⟨⟨1, 2, 3, 4⟩, ['a']⟩]] [] 0).1 =
            get_textpage_words (([[⟨⟨1, 2, 3, 4⟩, ['a']⟩]] : List (List Word)).getD 0 []) ∧
          (∀ j v, (j, v) ∈ (get_textpage_words_cached [[⟨⟨1, 2, 3, 4⟩, ['a']⟩]] [] 0).2 →
            v = get_textpage_words (([[⟨⟨1, 2, 3, 4⟩, ['a']⟩]] : List (List Word)).getD j [])) ∧
          get_textpage_words_cached [[⟨⟨1, 2, 3, 4⟩, ['a']⟩]]
              (get_textpage_words_cached [[⟨⟨1, 2, 3, 4⟩, ['a']⟩]] [] 0).2 0 =
            ((get_textpage_words_cached [[⟨⟨1, 2, 3, 4⟩, ['a']⟩]] [] 0).1,
              (get_textpage_words_cached [[⟨⟨1, 2, 3, 4⟩, ['a']⟩]] [] 0).2))) :=
  ⟨textpage_words_alignment_memo.1 [⟨⟨1, 2, 3, 4⟩, ['a', ' ', 'b']⟩],
    fun j v h => by simp at h,
    textpage_words_alignment_memo.2 [[⟨⟨1, 2, 3, 4⟩, ['a']⟩]] [] 0
      (fun j v h => by simp at h)⟩

end ReaderaHighlighter
